import Mathlib

set_option maxRecDepth 4000

/-!
Shallow embedding of the editing core of `erikps/text-editor` (Rust).

The ropey `Rope` is modelled as a `List Char` (a sequence of Unicode scalar
values); its byte-indexed queries are modelled through the UTF-8 size of each
character.  Rust operations that can panic (`Rope::char` out of range,
`usize` subtraction underflow, `Ord::clamp` with `min > max`, checked `i32`
arithmetic in debug builds, `Vec` indexing) are modelled as `Option`/`Except`
values, `none`/`error` marking the panic.  `usize` values are modelled as
`Nat` (the embedding assumes no `usize`/`i64` overflow, which would require
texts of at least 2^63 characters); `i32` casts are modelled exactly, with
wrap-around on the cast and a panic on overflowing arithmetic.
-/

namespace TextEditor

/-- UTF-8 byte size of one Unicode scalar value, as used by ropey for its
byte metric (`str::len` in Rust counts these). -/
def charUtf8Size (c : Char) : Nat :=
  if c.val < 0x80 then 1
  else if c.val < 0x800 then 2
  else if c.val < 0x10000 then 3
  else 4

/-- Total UTF-8 byte length of a character sequence (`Rope::len_bytes`). -/
def lenBytes (t : List Char) : Nat := (t.map charUtf8Size).sum

/-- A text is ASCII when every character occupies one UTF-8 byte; on such
texts ropey's byte metric and char metric coincide. -/
def asciiText (t : List Char) : Prop := ∀ c ∈ t, charUtf8Size c = 1

instance (t : List Char) : Decidable (asciiText t) := by
  unfold asciiText; infer_instance

/-- The lines of a rope, the terminating `'\n'` kept with its line.  Matches
ropey's line decomposition: a final unterminated line counts, so a text
ending in `'\n'` has a trailing empty line and the empty text has one empty
line (`len_lines = number of newlines + 1`). -/
def ropeLines : List Char → List (List Char)
  | [] => [[]]
  | c :: rest =>
    match ropeLines rest with
    | [] => [[c]]
    | h :: t => if c = '\n' then [c] :: h :: t else (c :: h) :: t

/-- `Rope::len_lines`. -/
def len_lines (t : List Char) : Nat := (ropeLines t).length

/-- `Rope::line(i)`: panics (`none`) when `i ≥ len_lines`. -/
def ropeLine (t : List Char) (i : Nat) : Option (List Char) :=
  (ropeLines t).get? i

/-- Characters of a list of lines. -/
def sumLens (L : List (List Char)) : Nat := (L.map List.length).sum

/-- UTF-8 bytes of a list of lines. -/
def sumBytes (L : List (List Char)) : Nat := (L.map lenBytes).sum

/-- Index of the line containing character offset `c` in the line list `L`;
offsets at or beyond the end fall on the last line, as in ropey. -/
def charToLineAux : List (List Char) → Nat → Nat
  | [], _ => 0
  | l :: ls, c => if c < l.length ∨ ls = [] then 0 else 1 + charToLineAux ls (c - l.length)

/-- Index of the line containing byte offset `b` in the line list `L`. -/
def byteToLineAux : List (List Char) → Nat → Nat
  | [], _ => 0
  | l :: ls, b => if b < lenBytes l ∨ ls = [] then 0 else 1 + byteToLineAux ls (b - lenBytes l)

/-- Character offset of the start of line `i` (sum of earlier line lengths). -/
def lineToCharAux (L : List (List Char)) (i : Nat) : Nat := sumLens (L.take i)

/-- Byte offset of the start of line `i`. -/
def lineToByteAux (L : List (List Char)) (i : Nat) : Nat := sumBytes (L.take i)

/-- `Rope::char_to_line`: panics (`none`) when the offset exceeds `len_chars`;
`char_to_line(len_chars)` is the last line index. -/
def char_to_line (t : List Char) (c : Nat) : Option Nat :=
  if c ≤ t.length then some (charToLineAux (ropeLines t) c) else none

/-- `Rope::byte_to_line`: panics (`none`) when the offset exceeds `len_bytes`. -/
def byte_to_line (t : List Char) (b : Nat) : Option Nat :=
  if b ≤ lenBytes t then some (byteToLineAux (ropeLines t) b) else none

/-- `Rope::line_to_char`: panics (`none`) when `i > len_lines`. -/
def line_to_char (t : List Char) (i : Nat) : Option Nat :=
  if i ≤ len_lines t then some (lineToCharAux (ropeLines t) i) else none

/-- `Rope::line_to_byte`: panics (`none`) when `i > len_lines`. -/
def line_to_byte (t : List Char) (i : Nat) : Option Nat :=
  if i ≤ len_lines t then some (lineToByteAux (ropeLines t) i) else none

/-- `Rope::remove(a..b)` (used with `a ≤ b` ranges): panics (`none`) when the
range is inverted or reaches past the end of the text. -/
def ropeRemove (t : List Char) (a b : Nat) : Option (List Char) :=
  if a ≤ b ∧ b ≤ t.length then some (t.take a ++ t.drop b) else none

/-- Rust `Ord::clamp` for integers in the non-panicking case `lo ≤ hi`. -/
def clampI (v lo hi : Int) : Int := max lo (min v hi)

/-- The wrapping cast `usize as i32`. -/
def i32ofNat (n : Nat) : Int := ((n + 2 ^ 31) % 2 ^ 32 : Nat) - 2 ^ 31

/-- Checked `i32` addition: overflow panics (`none`) in debug builds. -/
def i32add (a b : Int) : Option Int :=
  if -2 ^ 31 ≤ a + b ∧ a + b < 2 ^ 31 then some (a + b) else none

/-- Checked `i32` negation: negating `i32::MIN` panics (`none`). -/
def i32neg (a : Int) : Option Int :=
  if a = -2 ^ 31 then none else some (-a)

/-- `cursor_add` from `buffer.rs`: `(cursor as i32 + value).max(0) as Cursor`.
The cast of `cursor` wraps; the addition is checked. -/
def cursor_add (cursor : Nat) (value : Int) : Option Nat :=
  (i32add (i32ofNat cursor) value).map (fun r => (max r 0).toNat)

/-- `Buffer` from `buffer.rs`: a rope plus a cursor (a character offset). -/
structure Buffer where
  text : List Char
  cursor : Nat
deriving DecidableEq

/-- `Buffer::find_line_position`: the char index of the cursor within the
current line.  Note the source feeds the character offset `cursor` to
`byte_to_line` and subtracts a `line_to_char` result from it; the `usize`
subtraction would panic (`none`) if it underflowed. -/
def find_line_position (t : List Char) (cursor : Nat) : Option Nat :=
  match byte_to_line t cursor with
  | none => none
  | some line =>
    match line_to_char t line with
    | none => none
    | some line_start => if line_start ≤ cursor then some (cursor - line_start) else none

/-- `Buffer::get_movement_x`: `(cursor as i64 + x as i64).clamp(0, len_chars - 1)
as Cursor`.  When `len_chars = 0` the Rust `clamp` is called with
`min = 0 > max = -1` and panics (`none`). -/
def get_movement_x (t : List Char) (cursor : Nat) (x : Int) : Option Nat :=
  if t.length = 0 then none
  else some (clampI ((cursor : Int) + x) 0 ((t.length : Int) - 1)).toNat

/-- `Buffer::get_movement_y`.  The source computes the current line of the
cursor via `byte_to_line`, clamps the target line, recomputes the current
column with `find_line_position`, clamps it to the target line's length, and
re-enters `get_movement_x` from the target line start.  The `usize`
subtraction `line(new_y).len_chars() - 1` panics (`none`) on an empty line
(debug build semantics); otherwise `current_x.clamp(0, len - 1)` is
`min current_x (len - 1)`. -/
def get_movement_y (t : List Char) (cursor : Nat) (y : Int) : Option Nat :=
  match byte_to_line t cursor with
  | none => none
  | some current_y =>
    match find_line_position t cursor with
    | none => none
    | some current_x =>
      match ropeLine t ((clampI ((current_y : Int) + y) 0 ((len_lines t - 1 : Nat) : Int)).toNat) with
      | none => none
      | some l =>
        if l.length = 0 then none
        else
          match line_to_char t
              ((clampI ((current_y : Int) + y) 0 ((len_lines t - 1 : Nat) : Int)).toNat) with
          | none => none
          | some new_cursor => get_movement_x t new_cursor (i32ofNat (min current_x (l.length - 1)))

/-- `Buffer::get_end_of_line_cursor`: `line_to_byte(char_to_line(cursor)) +
line_len - 1` — note the byte/char mix in the source.  The `usize`
subtraction panics (`none`) when both terms are zero. -/
def get_end_of_line_cursor (t : List Char) (cursor : Nat) : Option Nat :=
  match char_to_line t cursor with
  | none => none
  | some y =>
    match line_to_byte t y with
    | none => none
    | some line_start =>
      match ropeLine t y with
      | none => none
      | some l =>
        if line_start + l.length = 0 then none else some (line_start + l.length - 1)

/-- `Motion` from `motion.rs`. -/
inductive Motion
  | Left
  | Right
  | Up
  | Down
  | ForwardWord
  | ForwardWordEnd
  | BackWord
  | EndOfLine
deriving DecidableEq

/-- `skip_while` from `motion.rs`: number of leading characters satisfying
the (index-aware) predicate. -/
def skipWhileAux : List Char → Nat → (Nat → Char → Bool) → Nat
  | [], _, _ => 0
  | c :: rest, i, p => if p i c then 1 + skipWhileAux rest (i + 1) p else 0

def skip_while (chars : List Char) (predicate : Nat → Char → Bool) : Nat :=
  skipWhileAux chars 0 predicate

/-- Rust `char::is_alphanumeric`.  The Rust predicate is Unicode-aware; it
agrees with this ASCII classifier on all ASCII characters, and every theorem
below evaluates it on ASCII text only. -/
def isAlphanumericChar (c : Char) : Bool :=
  (decide ('a' ≤ c) && decide (c ≤ 'z')) ||
  (decide ('A' ≤ c) && decide (c ≤ 'Z')) ||
  (decide ('0' ≤ c) && decide (c ≤ '9'))

/-- `Rope::char(i)`: panics (`none`) when `i ≥ len_chars`. -/
def ropeChar (t : List Char) (i : Nat) : Option Char := t.get? i

/-- The `Motion::ForwardWord` arm of `Motion::get_target` (`motion.rs`):
classify the character at the cursor, skip the run sharing that
classification (`is_alphanumeric_start == character.is_alphanumeric()`), and
move right by the run length.  `Rope::chars_at(cursor)` is the suffix from
`cursor`, reached only with `cursor ≤ len_chars`, so the total `drop` is
exact; the `offset as i32` cast wraps. -/
def forwardWordTarget (buffer : Buffer) : Option Nat :=
  (ropeChar buffer.text buffer.cursor).bind (fun c0 =>
    get_movement_x buffer.text buffer.cursor
      (i32ofNat (skip_while (buffer.text.drop buffer.cursor)
        (fun _ character => isAlphanumericChar c0 == isAlphanumericChar character))))

/-- The `Motion::ForwardWordEnd` arm of `Motion::get_target` (`motion.rs`):
the scan starts one step right of the cursor, the classification character
is taken at `(cursor.max(1) + 1).min(len_chars - 1)`, and the skipped count
plus one, minus one (`offset as i32 - 1`, checked arithmetic), is handed to
`get_movement_x`.  The `usize` expression `len_chars - 1` is only reached
when `get_movement_x` has already ruled out the empty text. -/
def forwardWordEndTarget (buffer : Buffer) : Option Nat :=
  (get_movement_x buffer.text buffer.cursor 1).bind (fun start =>
    (ropeChar buffer.text (min (max buffer.cursor 1 + 1) (buffer.text.length - 1))).bind
      (fun cls =>
        (i32add (i32ofNat (skip_while (buffer.text.drop start)
            (fun _ character => isAlphanumericChar cls == isAlphanumericChar character) + 1))
            (-1)).bind (fun d =>
          get_movement_x buffer.text buffer.cursor d)))

/-- The `Motion::BackWord` arm of `Motion::get_target` (`motion.rs`):
classify the character before the cursor (`cursor.max(1) - 1`), skip the
matching run over the reversed prefix (`chars_at(cursor).reversed()`), and
move back by `cursor_add(cursor, -(offset as i32))` with checked negation. -/
def backWordTarget (buffer : Buffer) : Option Nat :=
  (ropeChar buffer.text (max buffer.cursor 1 - 1)).bind (fun cls =>
    (i32neg (i32ofNat (skip_while (buffer.text.take buffer.cursor).reverse
        (fun _ character => isAlphanumericChar cls == isAlphanumericChar character)))).bind
      (fun d => cursor_add buffer.cursor d))

/-- `Motion::get_target` from `motion.rs`, one definition per `match` arm.
The source's trailing wildcard arm `_ => buffer.cursor` is dead: every
variant is matched. -/
def get_target (m : Motion) (buffer : Buffer) : Option Nat :=
  match m with
  | .ForwardWord => forwardWordTarget buffer
  | .ForwardWordEnd => forwardWordEndTarget buffer
  | .BackWord => backWordTarget buffer
  | .Left => get_movement_x buffer.text buffer.cursor (-1)
  | .Down => get_movement_y buffer.text buffer.cursor 1
  | .Up => get_movement_y buffer.text buffer.cursor (-1)
  | .Right => get_movement_x buffer.text buffer.cursor 1
  | .EndOfLine => get_end_of_line_cursor buffer.text buffer.cursor

example : get_target .ForwardWord ⟨"ab cd".toList, 0⟩ = some 2 := by decide
example : get_target .ForwardWordEnd ⟨"ab cd".toList, 0⟩ = some 0 := by decide
example : get_target .BackWord ⟨"ab cd".toList, 5⟩ = some 3 := by decide

/-- `Mode` from the editor state (`main.rs` drives all four variants). -/
inductive Mode
  | Normal
  | Insert
  | Command
  | QuickMenu
deriving DecidableEq

/-- `Action` (`crate::action::Action`).  The enum's own file is not in the
sources, but the wildcard-free `match` over it in `main.rs` fixes its
variants to exactly `Delete` and `Replace`. -/
inductive Action
  | Delete
  | Replace
deriving DecidableEq

/-- `Editor` from `state.rs`/`main.rs` (the `main.rs` construction also
carries the quick-menu line). -/
structure Editor where
  buffers : List Buffer
  current_buffer_index : Nat
  command_line : List Char
  quick_menu_line : List Char
  mode : Mode
  action : Option Action
deriving DecidableEq

/-- `Editor::buffer()`: `&mut self.buffers[self.current_buffer_index]`;
indexing out of bounds panics (`none`). -/
def editorBuffer (e : Editor) : Option Buffer :=
  e.buffers.get? e.current_buffer_index

/-- `Editor::next_buffer`: `(i + 1) % buffers.len()`; `% 0` panics (`none`). -/
def next_buffer (e : Editor) : Option Editor :=
  if e.buffers.length = 0 then none
  else some { e with current_buffer_index := (e.current_buffer_index + 1) % e.buffers.length }

/-- `Editor::previous_buffer`: `len - 1` when at index `0`, else `i - 1`;
the `usize` subtraction `len - 1` panics (`none`) on an empty buffer list. -/
def previous_buffer (e : Editor) : Option Editor :=
  if e.current_buffer_index = 0 then
    if e.buffers.length = 0 then none
    else some { e with current_buffer_index := e.buffers.length - 1 }
  else some { e with current_buffer_index := e.current_buffer_index - 1 }

/-- The motion branch of `update` in Normal mode with no pending action
(`main.rs`, `else` arm): the cursor relocates to the motion target. -/
def applyMotion (b : Buffer) (m : Motion) : Option Buffer :=
  (get_target m b).map (fun target => { b with cursor := target })

/-- Iterated motion application; a panic (`none`) aborts the sequence. -/
def applyMotions (b : Buffer) : List Motion → Option Buffer
  | [] => some b
  | m :: ms =>
    match applyMotion b m with
    | none => none
    | some b1 => applyMotions b1 ms

/-- The motion branch of `update` in Normal mode (`main.rs`): the motion
target is computed against the active buffer; with a pending action the
range between cursor and target is removed (`Replace` also enters Insert
mode) and the action is cleared, otherwise the cursor relocates. -/
def update_normal_motion (e : Editor) (m : Motion) : Option Editor :=
  match editorBuffer e with
  | none => none
  | some b =>
    match get_target m b with
    | none => none
    | some target =>
      match e.action with
      | some a =>
        let cursor := b.cursor
        let mode := match a with
          | .Delete => e.mode
          | .Replace => Mode.Insert
        if cursor ≤ target then
          match ropeRemove b.text cursor target with
          | none => none
          | some nt =>
            some { e with
              buffers := e.buffers.set e.current_buffer_index { b with text := nt },
              mode := mode, action := none }
        else
          match ropeRemove b.text target cursor with
          | none => none
          | some nt =>
            some { e with
              buffers := e.buffers.set e.current_buffer_index
                { b with text := nt, cursor := target },
              mode := mode, action := none }
      | none =>
        some { e with
          buffers := e.buffers.set e.current_buffer_index { b with cursor := target } }

/-- The backspace branch of `update` in Command mode (`main.rs`):
`command_line.pop()` then, if the line became empty, return to Normal mode.
No command is parsed or executed on this path. -/
def update_command_backspace (e : Editor) : Editor :=
  let cl := e.command_line.dropLast
  { e with command_line := cl, mode := if cl.isEmpty then Mode.Normal else e.mode }

/-- `CommandParameterType` from `commands.rs` (the `Box` is elided). -/
inductive CommandParameterType
  | StringParameter
  | IntParameter
  | FloatParameter
  | OptionalParameter (t : CommandParameterType)

/-- `CommandParameter` from `commands.rs`.  A parsed `f32` is represented by
the accepted literal: no command schema in the program carries a float and no
theorem below inspects a float value, only whether parsing succeeds. -/
inductive CommandParameter
  | StringParameter (s : List Char)
  | IntParameter (n : Int)
  | FloatParameter (lit : List Char)
  | OptionalParameter (p : Option CommandParameter)

/-- Numeric value of a digit run. -/
def digitsVal (l : List Char) : Nat :=
  l.foldl (fun a c => a * 10 + (c.toNat - '0'.toNat)) 0

def allDigits (l : List Char) : Bool :=
  !l.isEmpty && l.all (fun c => c.isDigit)

/-- Rust `i32::from_str`: an optional single sign, then one or more ASCII
digits, the value fitting in `i32`. -/
def parseI32 (s : List Char) : Option Int :=
  let signDigits : Int × List Char :=
    match s with
    | '+' :: rest => (1, rest)
    | '-' :: rest => (-1, rest)
    | _ => (1, s)
  if allDigits signDigits.2 then
    let v : Int := signDigits.1 * digitsVal signDigits.2
    if -2 ^ 31 ≤ v ∧ v < 2 ^ 31 then some v else none
  else none

/-- Split on every occurrence of a separator character, keeping empty pieces,
as Rust `str::split` does (`"".split(" ")` yields one empty piece). -/
def splitChar (sep : Char) : List Char → List (List Char)
  | [] => [[]]
  | c :: rest =>
    match splitChar sep rest with
    | [] => [[c]]
    | h :: t => if c = sep then [] :: h :: t else (c :: h) :: t

/-- Rust `f32::from_str` grammar: case-insensitive `inf`/`infinity`/`nan`, or
a decimal mantissa (digits, digits `.` optional digits, or optional digits
`.` digits) with an optional `e`/`E` exponent of signed digits, all after an
optional single sign. -/
def isRustFloatLit (s : List Char) : Bool :=
  let body : List Char :=
    match s with
    | '+' :: rest => rest
    | '-' :: rest => rest
    | _ => s
  let lower := body.map Char.toLower
  if lower = "inf".toList || lower = "infinity".toList || lower = "nan".toList then true
  else
    let mant := body.takeWhile (fun c => c ≠ 'e' ∧ c ≠ 'E')
    let rest := body.dropWhile (fun c => c ≠ 'e' ∧ c ≠ 'E')
    let mantOk :=
      match splitChar '.' mant with
      | [d] => allDigits d
      | [a, b] => (allDigits a && (b.isEmpty || allDigits b)) || (a.isEmpty && allDigits b)
      | _ => false
    let expOk :=
      match rest with
      | [] => true
      | _ :: e =>
        match e with
        | '+' :: d => allDigits d
        | '-' :: d => allDigits d
        | d => allDigits d
    mantOk && expOk

/-- `parse_parameter` from `commands.rs`.  Note the `Optional` arm returns
the inner parameter unwrapped: the `match` expression's value is the result
of the recursive call, never an `OptionalParameter`. -/
def parse_parameter (parameter_string : List Char) (parameter_type : CommandParameterType) :
    Except String CommandParameter :=
  match parameter_type with
  | .StringParameter => .ok (.StringParameter parameter_string)
  | .FloatParameter =>
    if isRustFloatLit parameter_string then .ok (.FloatParameter parameter_string)
    else .error "Could not parse float"
  | .IntParameter =>
    match parseI32 parameter_string with
    | some n => .ok (.IntParameter n)
    | none => .error "Could not parse int"
  | .OptionalParameter t => parse_parameter parameter_string t

/-- `Command` from `commands.rs`.  The `execute` handler is a boxed closure
performing I/O against the editor; `prepare_command` never invokes it, so it
is not part of the embedding. -/
structure Command where
  names : List (List Char)
  parameters : List CommandParameterType

/-- The parameter loop of `prepare_command`: for each declared parameter, a
present token is coerced — but a coercion `Err` is silently skipped by the
`if let Ok` — and a missing token is an error unless the parameter is
optional, in which case nothing is contributed. -/
def buildParameters (ptypes : List CommandParameterType) (parameter_strings : List (List Char))
    (param_index : Nat) : Except String (List CommandParameter) :=
  match ptypes with
  | [] => .ok []
  | pt :: rest =>
    match parameter_strings.get? param_index with
    | some s =>
      match parse_parameter s pt with
      | .ok p =>
        match buildParameters rest parameter_strings (param_index + 1) with
        | .ok tail => .ok (p :: tail)
        | .error msg => .error msg
      | .error _ =>
        buildParameters rest parameter_strings (param_index + 1)
    | none =>
      match pt with
      | .OptionalParameter _ => buildParameters rest parameter_strings (param_index + 1)
      | _ => .error "Too few parameters provided"

/-- The linear scan of `prepare_command` over the command table; the first
command one of whose names equals the typed name wins. -/
def scanCommands (commands : List Command) (command_index : Nat) (command_string : List Char)
    (parameter_strings : List (List Char)) : Except String (List CommandParameter × Nat) :=
  match commands with
  | [] => .error ("Could not find command \"" ++ String.mk command_string ++ "\"")
  | c :: rest =>
    if c.names.contains command_string then
      match buildParameters c.parameters parameter_strings 0 with
      | .ok ps => .ok (ps, command_index)
      | .error msg => .error msg
    else scanCommands rest (command_index + 1) command_string parameter_strings

/-- `prepare_command` from `commands.rs`: strip the leading `:` (one byte),
split on single spaces, look the name up in the table and build the
parameter list. -/
def prepare_command (commands : List Command) (string : List Char) :
    Except String (List CommandParameter × Nat) :=
  let no_colon_string := string.drop 1
  let fragments := splitChar ' ' no_colon_string
  match fragments with
  | [] => .error "Unexpected Error"
  | command_string :: parameter_strings =>
    scanCommands commands 0 command_string parameter_strings

/-- The command table of `get_standard_commands` (names and schemas; the
handlers are I/O closures). -/
def get_standard_commands : List Command :=
  [ { names := ["w".toList, "write".toList],
      parameters := [.OptionalParameter .StringParameter] },
    { names := ["e".toList, "edit".toList],
      parameters := [.StringParameter] },
    { names := ["q".toList, "quit".toList],
      parameters := [] },
    { names := ["bn".toList, "bnext".toList],
      parameters := [] },
    { names := ["bp".toList, "bprevious".toList],
      parameters := [] } ]

/-- A one-command table whose single command `count` declares one `Int`
parameter; used to exercise numeric coercion. -/
def intCommandTable : List Command :=
  [ { names := ["count".toList], parameters := [.IntParameter] } ]

/-- A concrete editor: one buffer holding `"hello world"` with the cursor at
offset 0, Normal mode, pending `Delete`. -/
def helloWorldEditor : Editor where
  buffers := [⟨"hello world".toList, 0⟩]
  current_buffer_index := 0
  command_line := []
  quick_menu_line := []
  mode := Mode.Normal
  action := some Action.Delete

/-- A concrete editor with three (empty) buffers and buffer index 2. -/
def threeBufferEditor : Editor where
  buffers := [⟨[], 0⟩, ⟨[], 0⟩, ⟨[], 0⟩]
  current_buffer_index := 2
  command_line := []
  quick_menu_line := []
  mode := Mode.Normal
  action := none

/-- A concrete editor in Command mode whose command line holds only the
leading colon. -/
def colonCommandEditor : Editor where
  buffers := [⟨[], 0⟩]
  current_buffer_index := 0
  command_line := [':']
  quick_menu_line := []
  mode := Mode.Command
  action := none

/-! ## Line-structure lemmas -/

theorem ropeLines_ne_nil (t : List Char) : ropeLines t ≠ [] := by
  cases t with
  | nil => simp [ropeLines]
  | cons c rest =>
    simp only [ropeLines]
    cases ropeLines rest with
    | nil => simp
    | cons h tl => by_cases hc : c = '\n' <;> simp [hc]

theorem ropeLines_flatten (t : List Char) : (ropeLines t).flatten = t := by
  induction t with
  | nil => simp [ropeLines]
  | cons c rest ih =>
    simp only [ropeLines]
    rcases hr : ropeLines rest with _ | ⟨h, tl⟩
    · exact absurd hr (ropeLines_ne_nil rest)
    · rw [hr] at ih
      simp only [List.flatten_cons] at ih
      by_cases hc : c = '\n' <;> simp [hc, ih]

theorem sumLens_ropeLines (t : List Char) : sumLens (ropeLines t) = t.length := by
  have h := congrArg List.length (ropeLines_flatten t)
  rw [List.length_flatten] at h
  exact h

theorem lenBytes_append (a b : List Char) : lenBytes (a ++ b) = lenBytes a + lenBytes b := by
  simp [lenBytes]

theorem lenBytes_flatten (L : List (List Char)) : lenBytes L.flatten = sumBytes L := by
  induction L with
  | nil => simp [lenBytes, sumBytes]
  | cons h tl ih =>
    simp only [List.flatten_cons, lenBytes_append, ih, sumBytes, List.map_cons, List.sum_cons]

theorem sumBytes_ropeLines (t : List Char) : sumBytes (ropeLines t) = lenBytes t := by
  conv_rhs => rw [← ropeLines_flatten t]
  rw [lenBytes_flatten]

theorem mem_of_mem_ropeLines {t l : List Char} {c : Char} (hl : l ∈ ropeLines t)
    (hc : c ∈ l) : c ∈ t := by
  rw [← ropeLines_flatten t]
  exact List.mem_flatten.mpr ⟨l, hl, hc⟩

theorem lenBytes_eq_length {l : List Char} (h : ∀ c ∈ l, charUtf8Size c = 1) :
    lenBytes l = l.length := by
  induction l with
  | nil => rfl
  | cons c rest ih =>
    have h1 := h c (List.mem_cons_self c rest)
    have h2 : lenBytes rest = rest.length := ih fun x hx => h x (List.mem_cons_of_mem _ hx)
    simp [lenBytes] at h2 ⊢
    omega

theorem asciiLines {t : List Char} (h : asciiText t) :
    ∀ l ∈ ropeLines t, lenBytes l = l.length :=
  fun l hl => lenBytes_eq_length fun c hc => h c (mem_of_mem_ropeLines hl hc)

theorem byteToLineAux_eq_charToLineAux {L : List (List Char)}
    (h : ∀ l ∈ L, lenBytes l = l.length) (b : Nat) :
    byteToLineAux L b = charToLineAux L b := by
  induction L generalizing b with
  | nil => rfl
  | cons l ls ih =>
    have hl := h l (List.mem_cons_self l ls)
    have hls : ∀ x ∈ ls, lenBytes x = x.length := fun x hx => h x (List.mem_cons_of_mem _ hx)
    by_cases hc : b < l.length ∨ ls = []
    · simp [byteToLineAux, charToLineAux, hl, hc]
    · simp [byteToLineAux, charToLineAux, hl, hc, ih hls]

theorem lineToByteAux_eq_lineToCharAux {L : List (List Char)}
    (h : ∀ l ∈ L, lenBytes l = l.length) (i : Nat) :
    lineToByteAux L i = lineToCharAux L i := by
  unfold lineToByteAux lineToCharAux sumBytes sumLens
  exact congrArg List.sum (List.map_congr_left fun l hl => h l (List.mem_of_mem_take hl))

theorem sumLens_take_le (L : List (List Char)) (i : Nat) : sumLens (L.take i) ≤ sumLens L := by
  have h : sumLens L = sumLens (L.take i) + sumLens (L.drop i) := by
    conv_lhs => rw [← List.take_append_drop i L]
    simp [sumLens]
  omega

theorem sumLens_take_succ {L : List (List Char)} {k : Nat} (h : k < L.length) :
    sumLens (L.take (k + 1)) = sumLens (L.take k) + (L.getD k []).length := by
  induction L generalizing k with
  | nil => exact absurd h (Nat.not_lt_zero k)
  | cons l ls ih =>
    cases k with
    | zero => simp [sumLens]
    | succ k =>
      have hk : k < ls.length := by simpa using h
      have := ih hk
      simp [sumLens] at this ⊢
      omega

theorem lineToCharAux_add_lt {L : List (List Char)} {k c : Nat} (hk : k < L.length)
    (hc : c < (L.getD k []).length) : lineToCharAux L k + c < sumLens L := by
  have h1 := sumLens_take_succ hk
  have h2 := sumLens_take_le L (k + 1)
  unfold lineToCharAux
  omega

theorem charToLineAux_lineToCharAux (L : List (List Char)) (k c : Nat) (hk : k < L.length)
    (hc : c < (L.getD k []).length) : charToLineAux L (lineToCharAux L k + c) = k := by
  induction L generalizing k with
  | nil => exact absurd hk (Nat.not_lt_zero k)
  | cons l ls ih =>
    cases k with
    | zero =>
      have hcl : c < l.length := by simpa using hc
      simp [charToLineAux, lineToCharAux, sumLens, hcl]
    | succ k =>
      have hk' : k < ls.length := by simpa using hk
      have hc' : c < (ls.getD k []).length := by simpa using hc
      have hlt : lineToCharAux (l :: ls) (k + 1) + c = l.length + (lineToCharAux ls k + c) := by
        simp [lineToCharAux, sumLens, List.take_succ_cons]
        omega
      rw [hlt]
      have hne : ls ≠ [] := by
        intro h0
        rw [h0] at hk'
        exact absurd hk' (Nat.not_lt_zero k)
      have hcond : ¬ (l.length + (lineToCharAux ls k + c) < l.length ∨ ls = []) := by
        rintro (h0 | h0)
        · omega
        · exact hne h0
      simp only [charToLineAux, if_neg hcond]
      rw [Nat.add_sub_cancel_left, ih _ hk' hc']
      omega

theorem charToLineAux_spec (L : List (List Char)) (c : Nat) (hc : c < sumLens L) :
    charToLineAux L c < L.length ∧ lineToCharAux L (charToLineAux L c) ≤ c ∧
      c - lineToCharAux L (charToLineAux L c) < (L.getD (charToLineAux L c) []).length := by
  induction L generalizing c with
  | nil => simp [sumLens] at hc
  | cons l ls ih =>
    by_cases h1 : c < l.length ∨ ls = []
    · have hz : charToLineAux (l :: ls) c = 0 := by simp [charToLineAux, h1]
      refine ⟨by simp [hz], by simp [hz, lineToCharAux, sumLens], ?_⟩
      rw [hz]
      simp only [lineToCharAux, List.take_zero, List.getD]
      rcases h1 with h | h
      · simpa [sumLens] using h
      · subst h
        simp [sumLens] at hc
        simpa [sumLens] using hc
    · push_neg at h1
      obtain ⟨hcl, hls⟩ := h1
      have hcond : ¬ (c < l.length ∨ ls = []) := by
        rintro (h0 | h0)
        · omega
        · exact hls h0
      have hrec : charToLineAux (l :: ls) c = 1 + charToLineAux ls (c - l.length) := by
        simp only [charToLineAux]
        rw [if_neg hcond]
      have hc' : c - l.length < sumLens ls := by
        simp [sumLens] at hc ⊢
        omega
      obtain ⟨ih1, ih2, ih3⟩ := ih (c - l.length) hc'
      rw [hrec]
      have hadd : (1 : Nat) + charToLineAux ls (c - l.length) =
          charToLineAux ls (c - l.length) + 1 := Nat.add_comm _ _
      rw [hadd]
      have hstart : lineToCharAux (l :: ls) (charToLineAux ls (c - l.length) + 1) =
          l.length + lineToCharAux ls (charToLineAux ls (c - l.length)) := by
        simp [lineToCharAux, sumLens, List.take_succ_cons]
      refine ⟨by simpa using ih1, ?_, ?_⟩
      · rw [hstart]; omega
      · rw [hstart]
        simp only [List.getD_cons_succ]
        omega

/-! ## Query-level lemmas on ASCII text -/

theorem byte_to_line_ascii {t : List Char} (h : asciiText t) {b : Nat} (hb : b ≤ t.length) :
    byte_to_line t b = some (charToLineAux (ropeLines t) b) := by
  have hlb : lenBytes t = t.length := lenBytes_eq_length h
  unfold byte_to_line
  rw [if_pos (by omega : b ≤ lenBytes t)]
  rw [byteToLineAux_eq_charToLineAux (asciiLines h)]

theorem line_to_byte_ascii {t : List Char} (h : asciiText t) {i : Nat} (hi : i ≤ len_lines t) :
    line_to_byte t i = some (lineToCharAux (ropeLines t) i) := by
  unfold line_to_byte
  rw [if_pos hi, lineToByteAux_eq_lineToCharAux (asciiLines h)]

theorem ropeLine_eq {t : List Char} {i : Nat} (hi : i < (ropeLines t).length) :
    ropeLine t i = some ((ropeLines t).getD i []) := by
  unfold ropeLine
  rw [List.get?_eq_get hi, List.getD_eq_get _ _ hi]

theorem find_line_position_at {t : List Char} (h : asciiText t) {k c : Nat}
    (hk : k < (ropeLines t).length) (hc : c < ((ropeLines t).getD k []).length) :
    find_line_position t (lineToCharAux (ropeLines t) k + c) = some c := by
  have hcur : lineToCharAux (ropeLines t) k + c < t.length := by
    have := lineToCharAux_add_lt hk hc
    rwa [sumLens_ropeLines] at this
  have h1 : byte_to_line t (lineToCharAux (ropeLines t) k + c) = some k := by
    rw [byte_to_line_ascii h (le_of_lt hcur), charToLineAux_lineToCharAux _ k c hk hc]
  have h2 : line_to_char t k = some (lineToCharAux (ropeLines t) k) := by
    unfold line_to_char
    rw [if_pos (le_of_lt hk : k ≤ len_lines t)]
  unfold find_line_position
  simp only [h1, h2]
  rw [if_pos (Nat.le_add_right _ _), Nat.add_sub_cancel_left]

/-! ## Movement lemmas -/

theorem i32ofNat_small {n : Nat} (h : n < 2 ^ 31) : i32ofNat n = n := by
  unfold i32ofNat
  rw [Nat.mod_eq_of_lt (by omega : n + 2 ^ 31 < 2 ^ 32)]
  push_cast
  omega

theorem get_movement_x_exact {t : List Char} {c : Nat} {x : Int} (h0 : 0 ≤ (c : Int) + x)
    (h1 : (c : Int) + x ≤ (t.length : Int) - 1) :
    get_movement_x t c x = some ((c : Int) + x).toNat := by
  have hlen : t.length ≠ 0 := by
    intro h
    rw [h] at h1
    omega
  unfold get_movement_x
  rw [if_neg hlen]
  have hcl : clampI ((c : Int) + x) 0 ((t.length : Int) - 1) = (c : Int) + x := by
    unfold clampI
    omega
  rw [hcl]

theorem get_movement_x_some_lt {t : List Char} {c v : Nat} {x : Int}
    (h : get_movement_x t c x = some v) : v < max 1 t.length := by
  unfold get_movement_x at h
  by_cases hlen : t.length = 0
  · rw [if_pos hlen] at h
    exact absurd h (by simp)
  · rw [if_neg hlen] at h
    injection h with h
    have h1 : clampI ((c : Int) + x) 0 ((t.length : Int) - 1) ≤ (t.length : Int) - 1 := by
      unfold clampI
      omega
    have h2 : 0 ≤ clampI ((c : Int) + x) 0 ((t.length : Int) - 1) := by
      unfold clampI
      omega
    omega

theorem get_movement_y_to_line {t : List Char} (ha : asciiText t) {k kp c : Nat} {e : Int}
    (hk : k < (ropeLines t).length) (hkp : kp < (ropeLines t).length)
    (he : (k : Int) + e = kp)
    (hck : c < ((ropeLines t).getD k []).length)
    (hckp : c < ((ropeLines t).getD kp []).length)
    (hc32 : c < 2 ^ 31) :
    get_movement_y t (lineToCharAux (ropeLines t) k + c) e =
      some (lineToCharAux (ropeLines t) kp + c) := by
  have hcur : lineToCharAux (ropeLines t) k + c < t.length := by
    have := lineToCharAux_add_lt hk hck
    rwa [sumLens_ropeLines] at this
  have h1 : byte_to_line t (lineToCharAux (ropeLines t) k + c) = some k := by
    rw [byte_to_line_ascii ha (le_of_lt hcur), charToLineAux_lineToCharAux _ k c hk hck]
  have hlines1 : 1 ≤ (ropeLines t).length := by omega
  have hcast : ((len_lines t - 1 : Nat) : Int) = ((ropeLines t).length : Int) - 1 := by
    unfold len_lines
    omega
  have hny : (clampI ((k : Int) + e) 0 ((len_lines t - 1 : Nat) : Int)).toNat = kp := by
    rw [hcast]
    unfold clampI
    rw [he]
    omega
  have h3 : ropeLine t kp = some ((ropeLines t).getD kp []) := ropeLine_eq hkp
  have h4 : line_to_char t kp = some (lineToCharAux (ropeLines t) kp) := by
    unfold line_to_char
    rw [if_pos (le_of_lt hkp : kp ≤ len_lines t)]
  have hne : ¬ ((ropeLines t).getD kp []).length = 0 := by omega
  have hmin : min c (((ropeLines t).getD kp []).length - 1) = c := by omega
  have htgt : lineToCharAux (ropeLines t) kp + c < t.length := by
    have := lineToCharAux_add_lt hkp hckp
    rwa [sumLens_ropeLines] at this
  unfold get_movement_y
  simp only [h1, find_line_position_at ha hk hck, hny, h3, if_neg hne, h4, hmin,
    i32ofNat_small hc32]
  rw [get_movement_x_exact (by omega) (by omega)]
  congr 1

/-! ## Motion target bounds -/

theorem skipWhileAux_le (l : List Char) (i : Nat) (p : Nat → Char → Bool) :
    skipWhileAux l i p ≤ l.length := by
  induction l generalizing i with
  | nil => exact Nat.le_refl 0
  | cons c rest ih =>
    simp only [skipWhileAux, List.length_cons]
    split
    · have := ih (i + 1)
      omega
    · omega

theorem i32ofNat_bounds (n : Nat) :
    -2 ^ 31 ≤ i32ofNat n ∧ i32ofNat n < 2 ^ 31 ∧ i32ofNat n ≤ n := by
  unfold i32ofNat
  have h1 : (n + 2 ^ 31) % 2 ^ 32 < 2 ^ 32 := Nat.mod_lt _ (by omega)
  have h2 : (n + 2 ^ 31) % 2 ^ 32 ≤ n + 2 ^ 31 := Nat.mod_le _ _
  push_cast
  omega

theorem i32add_eq_some {a b r : Int} (h : i32add a b = some r) :
    r = a + b ∧ -2 ^ 31 ≤ r ∧ r < 2 ^ 31 := by
  unfold i32add at h
  by_cases hc : -2 ^ 31 ≤ a + b ∧ a + b < 2 ^ 31
  · rw [if_pos hc] at h
    injection h with h
    omega
  · rw [if_neg hc] at h
    exact absurd h (by simp)

theorem i32neg_eq_some {a r : Int} (h : i32neg a = some r) : r = -a := by
  unfold i32neg at h
  by_cases hc : a = -2 ^ 31
  · rw [if_pos hc] at h
    exact absurd h (by simp)
  · rw [if_neg hc] at h
    injection h with h
    omega

theorem get_movement_y_some_lt {t : List Char} {c v : Nat} {y : Int}
    (h : get_movement_y t c y = some v) : v < max 1 t.length := by
  unfold get_movement_y at h
  rcases hb : byte_to_line t c with _ | cy
  · simp [hb] at h
  simp only [hb] at h
  rcases hf : find_line_position t c with _ | cx
  · simp [hf] at h
  simp only [hf] at h
  rcases hl : ropeLine t ((clampI ((cy : Int) + y) 0 ((len_lines t - 1 : Nat) : Int)).toNat)
    with _ | l
  · simp [hl] at h
  simp only [hl] at h
  by_cases hl0 : l.length = 0
  · simp [hl0] at h
  simp only [if_neg hl0] at h
  rcases hlc : line_to_char t ((clampI ((cy : Int) + y) 0 ((len_lines t - 1 : Nat) : Int)).toNat)
    with _ | nc
  · simp [hlc] at h
  simp only [hlc] at h
  exact get_movement_x_some_lt h

theorem get_end_of_line_some_lt {t : List Char} {c v : Nat} (ha : asciiText t)
    (hc : c < max 1 t.length) (h : get_end_of_line_cursor t c = some v) :
    v < max 1 t.length := by
  by_cases hlen : t.length = 0
  · have ht : t = [] := List.length_eq_zero.mp hlen
    subst ht
    have hc0 : c = 0 := by simp at hc; omega
    subst hc0
    have hev : get_end_of_line_cursor ([] : List Char) 0 = none := rfl
    rw [hev] at h
    exact Option.noConfusion h
  · have hc' : c < t.length := by omega
    obtain ⟨h1, h2, h3⟩ := charToLineAux_spec (ropeLines t) c (by rwa [sumLens_ropeLines])
    have hcl : char_to_line t c = some (charToLineAux (ropeLines t) c) := by
      unfold char_to_line
      rw [if_pos (le_of_lt hc')]
    have hlb : line_to_byte t (charToLineAux (ropeLines t) c) =
        some (lineToCharAux (ropeLines t) (charToLineAux (ropeLines t) c)) :=
      line_to_byte_ascii ha (le_of_lt h1)
    have hrl : ropeLine t (charToLineAux (ropeLines t) c) =
        some ((ropeLines t).getD (charToLineAux (ropeLines t) c) []) := ropeLine_eq h1
    have hne : ¬ (lineToCharAux (ropeLines t) (charToLineAux (ropeLines t) c) +
        ((ropeLines t).getD (charToLineAux (ropeLines t) c) []).length = 0) := by
      omega
    unfold get_end_of_line_cursor at h
    simp only [hcl, hlb, hrl, if_neg hne] at h
    injection h with h
    have hlast : ((ropeLines t).getD (charToLineAux (ropeLines t) c) []).length - 1 <
        ((ropeLines t).getD (charToLineAux (ropeLines t) c) []).length := by
      omega
    have := lineToCharAux_add_lt h1 hlast
    rw [sumLens_ropeLines] at this
    omega

theorem cursor_add_some_lt {t : List Char} {cursor off v : Nat} {d : Int}
    (hd : d = -(i32ofNat off)) (hoff : off ≤ cursor) (hcur : cursor < max 1 t.length)
    (hlen : 1 ≤ t.length) (h : cursor_add cursor d = some v) : v < max 1 t.length := by
  unfold cursor_add at h
  rcases hadd : i32add (i32ofNat cursor) d with _ | r
  · simp [hadd] at h
  simp only [hadd, Option.map_some'] at h
  injection h with h
  obtain ⟨hr, hr1, hr2⟩ := i32add_eq_some hadd
  obtain ⟨hb1, hb2, hb3⟩ := i32ofNat_bounds cursor
  obtain ⟨hc1, hc2, hc3⟩ := i32ofNat_bounds off
  by_cases hbig : t.length < 2 ^ 31
  · have hcc : i32ofNat cursor = cursor := i32ofNat_small (by omega)
    have hoo : i32ofNat off = off := i32ofNat_small (by omega)
    rw [hd, hcc, hoo] at hr
    omega
  · omega

theorem forwardWordTarget_some_lt {b : Buffer} {tgt : Nat}
    (h : forwardWordTarget b = some tgt) : tgt < max 1 b.text.length := by
  unfold forwardWordTarget at h
  simp only [Option.bind_eq_some] at h
  obtain ⟨c0, hg, h⟩ := h
  exact get_movement_x_some_lt h

theorem forwardWordEndTarget_some_lt {b : Buffer} {tgt : Nat}
    (h : forwardWordEndTarget b = some tgt) : tgt < max 1 b.text.length := by
  unfold forwardWordEndTarget at h
  simp only [Option.bind_eq_some] at h
  obtain ⟨start, hm, cls, hg, d, hd, h⟩ := h
  exact get_movement_x_some_lt h

theorem backWordTarget_some_lt {b : Buffer} {tgt : Nat}
    (hcur : b.cursor < max 1 b.text.length) (h : backWordTarget b = some tgt) :
    tgt < max 1 b.text.length := by
  unfold backWordTarget at h
  simp only [Option.bind_eq_some] at h
  obtain ⟨cls, hg, d, hn, h⟩ := h
  have hlt : max b.cursor 1 - 1 < b.text.length := (List.get?_eq_some.mp hg).1
  have hlen : 1 ≤ b.text.length := by omega
  have hoff : skip_while (b.text.take b.cursor).reverse
      (fun _ character => isAlphanumericChar cls == isAlphanumericChar character) ≤
      b.cursor := by
    have h1 := skipWhileAux_le (b.text.take b.cursor).reverse 0
      (fun _ character => isAlphanumericChar cls == isAlphanumericChar character)
    have h2 : (b.text.take b.cursor).reverse.length ≤ b.cursor := by
      simp [List.length_reverse, List.length_take]
    exact le_trans h1 h2
  exact cursor_add_some_lt (i32neg_eq_some hn) hoff hcur hlen h

/-- Every successfully resolved motion target on ASCII text with a valid
cursor stays within `[0, max 1 length)`. -/
theorem get_target_lt {m : Motion} {b : Buffer} {tgt : Nat} (ha : asciiText b.text)
    (hcur : b.cursor < max 1 b.text.length) (h : get_target m b = some tgt) :
    tgt < max 1 b.text.length := by
  cases m with
  | Left => exact get_movement_x_some_lt h
  | Right => exact get_movement_x_some_lt h
  | Up => exact get_movement_y_some_lt h
  | Down => exact get_movement_y_some_lt h
  | EndOfLine => exact get_end_of_line_some_lt ha hcur h
  | ForwardWord => exact forwardWordTarget_some_lt h
  | ForwardWordEnd => exact forwardWordEndTarget_some_lt h
  | BackWord => exact backWordTarget_some_lt hcur h

/-- C1 (counterexample): on the text `"ab cd"`, resolving `ForwardWordEnd`
with the cursor at offset 0 does not yield target offset 1 — the
classification index `(cursor.max(1) + 1).min(len - 1)` inspects the space
at offset 2 and the scan stops immediately, producing offset 0. -/
theorem c1_forward_word_end_ne_one :
    get_target .ForwardWordEnd ⟨"ab cd".toList, 0⟩ ≠ some 1 := by decide

/-- C1 (amended): on the text `"ab cd"`: resolving `ForwardWord` with the
cursor at offset 0 yields target offset 2; resolving `ForwardWordEnd` with
the cursor at offset 0 yields target offset 0; resolving `BackWord` with the
cursor at offset 5 yields target offset 3. -/
theorem c1_word_motions_on_ab_cd :
    get_target .ForwardWord ⟨"ab cd".toList, 0⟩ = some 2 ∧
    get_target .ForwardWordEnd ⟨"ab cd".toList, 0⟩ = some 0 ∧
    get_target .BackWord ⟨"ab cd".toList, 5⟩ = some 3 := by decide

/-- C2 (evaluation at the failing input): parsing `":w foo.txt"` against the
standard table succeeds and binds the `write` command (index 0), but the
parameter list holds the bare string, not a present optional wrapping it:
the `Optional` arm of `parse_parameter` returns the inner parameter without
wrapping, so the `OptionalParameter` pattern the `w` handler matches on can
never be produced. -/
theorem c2_optional_parameter_not_wrapped :
    prepare_command get_standard_commands ":w foo.txt".toList =
      .ok ([CommandParameter.StringParameter "foo.txt".toList], 0) := rfl

/-- C3 (evaluation at the failing input): coercion of `"abc"` to `Int` does
produce the error `"Could not parse int"`, but `prepare_command` discards it
through `if let Ok` and reports success with a partial (here empty)
parameter list instead of failing. -/
theorem c3_numeric_error_swallowed :
    parse_parameter "abc".toList .IntParameter = .error "Could not parse int" ∧
    prepare_command intCommandTable ":count abc".toList = .ok ([], 0) := ⟨rfl, rfl⟩

/-- C4 (evaluation at the failing input): on a buffer whose text has length
0, `get_movement_x` does not return 0 — the Rust source calls
`clamp(0, len_chars - 1)` with `min = 0 > max = -1`, which panics. -/
theorem c4_empty_buffer_move_panics :
    get_movement_x ([] : List Char) 0 (-1) = none ∧
    get_movement_x ([] : List Char) 0 (-1) ≠ some 0 := by decide

/-- C5 (counterexample): on `"abcd\nx"` — line 0 of length 5 directly above
the shorter line 1 of length 1 — starting at offset 2 (column 2, within line
0's bounds), moving down and then back up lands at offset 0, column 0, not
the original column 2: the column is recomputed from the clamped offset on
the shorter line, so columns beyond the shorter line's end are not
restored. -/
theorem c5_column_not_restored :
    ropeLine "abcd\nx".toList 0 = some "abcd\n".toList ∧
    ropeLine "abcd\nx".toList 1 = some "x".toList ∧
    find_line_position "abcd\nx".toList 2 = some 2 ∧
    ((get_movement_y "abcd\nx".toList 2 1).bind
      (fun m => get_movement_y "abcd\nx".toList m (-1))).bind
      (find_line_position "abcd\nx".toList) = some 0 ∧
    some 0 ≠ some (2 : Nat) := by decide

/-- C7 (counterexample): on `"é\na"` with the valid offset 2 (the `'a'` on
line 1), `get_end_of_line_cursor` returns 3, not
`lineToChar(line) + lineLength(line) - 1 = 2 + 1 - 1 = 2`: the source adds
the line's *byte* start (`line_to_byte`) to its char length, and `'é'`
occupies two bytes. -/
theorem c7_end_of_line_not_line_to_char :
    get_end_of_line_cursor "é\na".toList 2 = some 3 ∧
    char_to_line "é\na".toList 2 = some 1 ∧
    line_to_char "é\na".toList 1 = some 2 ∧
    ropeLine "é\na".toList 1 = some "a".toList ∧
    some 3 ≠ some (2 + 1 - 1 : Nat) := by decide

/-- C5 (amended): for every buffer with single-byte (ASCII) text containing
a longer line `i` directly above or below a shorter line `j`
(`(i : Int) + e = j` with `e = ±1`), starting at an offset on the longer
line whose column `c` is within the *shorter* line's bounds (line lengths
below `2^31`), applying `get_movement_y` toward the shorter line and then
back returns the original offset — in particular an offset whose column
equals the original column `c`. -/
theorem c5_round_trip_restores_column {t : List Char} {i j c : Nat} {e : Int}
    (ha : asciiText t)
    (hdir : e = 1 ∨ e = -1)
    (hi : i < (ropeLines t).length) (hj : j < (ropeLines t).length)
    (hij : (i : Int) + e = j)
    (hshort : ((ropeLines t).getD j []).length < ((ropeLines t).getD i []).length)
    (hc : c < ((ropeLines t).getD j []).length)
    (hsz : ((ropeLines t).getD i []).length < 2 ^ 31) :
    (get_movement_y t (lineToCharAux (ropeLines t) i + c) e).bind
      (fun m => get_movement_y t m (-e)) = some (lineToCharAux (ropeLines t) i + c) ∧
    find_line_position t (lineToCharAux (ropeLines t) i + c) = some c := by
  have hc32 : c < 2 ^ 31 := by omega
  have hci : c < ((ropeLines t).getD i []).length := by omega
  have hji : (j : Int) + (-e) = i := by omega
  constructor
  · rw [get_movement_y_to_line ha hi hj hij hci hc hc32]
    rw [Option.some_bind]
    exact get_movement_y_to_line ha hj hi hji hc hci hc32
  · exact find_line_position_at ha hi hci

/-- C5 (witness): on `"ab\nc"` — line 0 of length 3 above the shorter line 1
of length 1 — starting at column 0 of line 0, moving down then up returns
the original offset and the original column. -/
theorem c5_witness :
    (get_movement_y "ab\nc".toList (lineToCharAux (ropeLines "ab\nc".toList) 0 + 0) 1).bind
      (fun m => get_movement_y "ab\nc".toList m (-1)) =
      some (lineToCharAux (ropeLines "ab\nc".toList) 0 + 0) ∧
    find_line_position "ab\nc".toList (lineToCharAux (ropeLines "ab\nc".toList) 0 + 0) =
      some 0 :=
  c5_round_trip_restores_column (t := "ab\nc".toList) (i := 0) (j := 1) (c := 0) (e := 1)
    (by decide) (Or.inl rfl) (by decide) (by decide) (by decide)
    (by decide) (by decide) (by decide)

/-- C7 (amended): for every buffer with single-byte (ASCII) text and every
valid offset, `get_end_of_line_cursor` returns
`lineToChar(line) + lineLength(line) - 1` for the line containing the
offset, and this never underflows below `lineToChar(line)` — the line
containing a valid offset is nonempty. -/
theorem c7_end_of_line_ascii {t : List Char} {cursor : Nat} (ha : asciiText t)
    (hc : cursor < t.length) :
    get_end_of_line_cursor t cursor =
      some (lineToCharAux (ropeLines t) (charToLineAux (ropeLines t) cursor) +
        ((ropeLines t).getD (charToLineAux (ropeLines t) cursor) []).length - 1) ∧
    lineToCharAux (ropeLines t) (charToLineAux (ropeLines t) cursor) ≤
      lineToCharAux (ropeLines t) (charToLineAux (ropeLines t) cursor) +
        ((ropeLines t).getD (charToLineAux (ropeLines t) cursor) []).length - 1 := by
  obtain ⟨h1, h2, h3⟩ :=
    charToLineAux_spec (ropeLines t) cursor (by rwa [sumLens_ropeLines])
  have hcl : char_to_line t cursor = some (charToLineAux (ropeLines t) cursor) := by
    unfold char_to_line
    rw [if_pos (le_of_lt hc)]
  have hlb : line_to_byte t (charToLineAux (ropeLines t) cursor) =
      some (lineToCharAux (ropeLines t) (charToLineAux (ropeLines t) cursor)) :=
    line_to_byte_ascii ha (le_of_lt h1)
  have hrl : ropeLine t (charToLineAux (ropeLines t) cursor) =
      some ((ropeLines t).getD (charToLineAux (ropeLines t) cursor) []) := ropeLine_eq h1
  have hne : ¬ (lineToCharAux (ropeLines t) (charToLineAux (ropeLines t) cursor) +
      ((ropeLines t).getD (charToLineAux (ropeLines t) cursor) []).length = 0) := by
    omega
  constructor
  · unfold get_end_of_line_cursor
    simp only [hcl, hlb, hrl, if_neg hne]
  · omega

/-- C7 (witness): on `"ab\ncd"` at offset 3 (line 1), the end-of-line cursor
is the claimed `lineToChar(1) + lineLength(1) - 1`. -/
theorem c7_witness :
    get_end_of_line_cursor "ab\ncd".toList 3 =
      some (lineToCharAux (ropeLines "ab\ncd".toList)
          (charToLineAux (ropeLines "ab\ncd".toList) 3) +
        ((ropeLines "ab\ncd".toList).getD
          (charToLineAux (ropeLines "ab\ncd".toList) 3) []).length - 1) ∧
    lineToCharAux (ropeLines "ab\ncd".toList) (charToLineAux (ropeLines "ab\ncd".toList) 3) ≤
      lineToCharAux (ropeLines "ab\ncd".toList) (charToLineAux (ropeLines "ab\ncd".toList) 3) +
        ((ropeLines "ab\ncd".toList).getD
          (charToLineAux (ropeLines "ab\ncd".toList) 3) []).length - 1 :=
  c7_end_of_line_ascii (by decide) (by decide)

/-- C8 (counterexample): applying the motion sequence `[EndOfLine]` to the
buffer `"é\na"` with (valid) cursor 2 leaves the cursor at 3, violating
`cursor < max 1 length` — the byte-based end-of-line offset escapes the
character range. -/
theorem c8_cursor_invariant_violated :
    (applyMotions ⟨"é\na".toList, 2⟩ [Motion.EndOfLine]).map Buffer.cursor = some 3 ∧
    ¬ (3 < max 1 ("é\na".toList).length) := by decide

/-- C8 (amended): for every buffer with single-byte (ASCII) text whose
cursor satisfies the invariant, after any sequence of motions is resolved
and applied to the cursor, the cursor satisfies
`0 ≤ cursor < max 1 length` (a motion that panics aborts the sequence). -/
theorem c8_cursor_invariant_ascii (ms : List Motion) :
    ∀ (b b' : Buffer), asciiText b.text → b.cursor < max 1 b.text.length →
      applyMotions b ms = some b' → b'.cursor < max 1 b'.text.length := by
  induction ms with
  | nil =>
    intro b b' ha hc h
    unfold applyMotions at h
    injection h with h
    rw [← h]
    exact hc
  | cons m rest ih =>
    intro b b' ha hc h
    unfold applyMotions at h
    rcases ham : applyMotion b m with _ | b1
    · rw [ham] at h
      exact absurd h (by simp)
    rw [ham] at h
    unfold applyMotion at ham
    rcases hg : get_target m b with _ | tgt
    · rw [hg] at ham
      exact absurd ham (by simp)
    rw [hg] at ham
    simp only [Option.map_some'] at ham
    injection ham with ham
    rw [← ham] at h
    have htgt : tgt < max 1 b.text.length := get_target_lt ha hc hg
    exact ih { b with cursor := tgt } b' ha htgt h

/-- C8 (witness): applying `[Right]` to the buffer `"ab"` with cursor 0
yields the buffer with cursor 1, which satisfies the invariant. -/
theorem c8_witness : (⟨"ab".toList, 1⟩ : Buffer).cursor <
    max 1 (⟨"ab".toList, 1⟩ : Buffer).text.length :=
  c8_cursor_invariant_ascii [Motion.Right] ⟨"ab".toList, 0⟩ ⟨"ab".toList, 1⟩
    (by decide) (by decide) (by decide)

/-- Setting the element at an in-range index makes `get?` at that index
return it. -/
theorem get?_set_self {α : Type} (l : List α) (i : Nat) (x : α) (h : i < l.length) :
    (l.set i x).get? i = some x := by
  induction l generalizing i with
  | nil => exact absurd h (Nat.not_lt_zero i)
  | cons a rest ih =>
    cases i with
    | zero => rfl
    | succ i => exact ih i (by simpa using h)

/-- C6: in Normal mode with a pending action set, the next motion intent
deletes the half-open range `[min(cursor,target), max(cursor,target))` from
the active buffer's text, sets the cursor to `min(cursor,target)`, and
clears the pending action. -/
theorem c6_pending_action_deletes_range {e : Editor} {m : Motion} {b : Buffer} {a : Action}
    {target : Nat}
    (hmode : e.mode = Mode.Normal)
    (hb : editorBuffer e = some b) (hact : e.action = some a)
    (ht : get_target m b = some target)
    (hcur : b.cursor ≤ b.text.length) (htl : target ≤ b.text.length) :
    ∃ e' b', update_normal_motion e m = some e' ∧ editorBuffer e' = some b' ∧
      b'.text = b.text.take (min b.cursor target) ++ b.text.drop (max b.cursor target) ∧
      b'.cursor = min b.cursor target ∧ e'.action = none := by
  have hidx : e.current_buffer_index < e.buffers.length := (List.get?_eq_some.mp hb).1
  unfold update_normal_motion
  simp only [hb, ht, hact]
  by_cases hle : b.cursor ≤ target
  · have hrem : ropeRemove b.text b.cursor target = some (b.text.take b.cursor ++ b.text.drop target) := by
      unfold ropeRemove
      rw [if_pos ⟨hle, htl⟩]
    have hmin : min b.cursor target = b.cursor := by omega
    have hmax : max b.cursor target = target := by omega
    rw [if_pos hle]
    simp only [hrem]
    refine ⟨_, _, rfl, get?_set_self _ _ _ hidx, ?_, ?_, rfl⟩
    · rw [hmin, hmax]
    · rw [hmin]
  · have hle' : target ≤ b.cursor := by omega
    have hrem : ropeRemove b.text target b.cursor = some (b.text.take target ++ b.text.drop b.cursor) := by
      unfold ropeRemove
      rw [if_pos ⟨hle', hcur⟩]
    have hmin : min b.cursor target = target := by omega
    have hmax : max b.cursor target = b.cursor := by omega
    rw [if_neg hle]
    simp only [hrem]
    refine ⟨_, _, rfl, get?_set_self _ _ _ hidx, ?_, ?_, rfl⟩
    · rw [hmin, hmax]
    · rw [hmin]

/-- C6 (witness): with text `"hello world"`, cursor 0, pending `Delete`, and
motion `ForwardWord` (target 5), the resulting text is `" world"` and the
cursor is 0. -/
theorem c6_witness :
    ∃ e' b',
      update_normal_motion helloWorldEditor Motion.ForwardWord = some e' ∧
      editorBuffer e' = some b' ∧
      b'.text = " world".toList ∧ b'.cursor = 0 ∧ e'.action = none := by
  have ht : get_target Motion.ForwardWord ⟨"hello world".toList, 0⟩ = some 5 := by decide
  obtain ⟨e', b', h1, h2, h3, h4, h5⟩ :=
    c6_pending_action_deletes_range (e := helloWorldEditor)
      rfl rfl rfl ht (by decide) (by decide)
  refine ⟨e', b', h1, h2, ?_, h4, h5⟩
  rw [h3]
  decide

/-- C9: `next_buffer` and `previous_buffer` change only
`current_buffer_index`, advancing to `(i + 1) % n` and retreating to
`(i + n - 1) % n`; the buffer list, mode, pending action, command line and
quick-menu line are all unchanged. -/
theorem c9_buffer_cycling_frame {e : Editor} (hn : 0 < e.buffers.length)
    (hi : e.current_buffer_index < e.buffers.length) :
    next_buffer e = some { e with
      current_buffer_index := (e.current_buffer_index + 1) % e.buffers.length } ∧
    previous_buffer e = some { e with
      current_buffer_index :=
        (e.current_buffer_index + e.buffers.length - 1) % e.buffers.length } := by
  constructor
  · unfold next_buffer
    rw [if_neg (by omega)]
  · unfold previous_buffer
    by_cases h0 : e.current_buffer_index = 0
    · rw [if_pos h0, if_neg (by omega)]
      have hmod : (e.current_buffer_index + e.buffers.length - 1) % e.buffers.length =
          e.buffers.length - 1 := by
        rw [h0, Nat.zero_add]
        exact Nat.mod_eq_of_lt (by omega)
      rw [hmod]
    · rw [if_neg h0]
      have hmod : (e.current_buffer_index + e.buffers.length - 1) % e.buffers.length =
          e.current_buffer_index - 1 := by
        have hsplit : e.current_buffer_index + e.buffers.length - 1 =
            (e.current_buffer_index - 1) + e.buffers.length := by omega
        rw [hsplit, Nat.add_mod_right]
        exact Nat.mod_eq_of_lt (by omega)
      rw [hmod]

/-- C9 (witness): with three buffers and index 2, `next_buffer` moves to
`(2 + 1) % 3 = 0` and `previous_buffer` to `(2 + 3 - 1) % 3 = 1`, all other
fields unchanged. -/
theorem c9_witness :
    next_buffer threeBufferEditor = some { threeBufferEditor with
      current_buffer_index :=
        (threeBufferEditor.current_buffer_index + 1) % threeBufferEditor.buffers.length } ∧
    previous_buffer threeBufferEditor = some { threeBufferEditor with
      current_buffer_index :=
        (threeBufferEditor.current_buffer_index + threeBufferEditor.buffers.length - 1) %
          threeBufferEditor.buffers.length } :=
  c9_buffer_cycling_frame (by decide) (by decide)

/-- C10: in Command mode, a backspace removes the last character of the
command line; if the command line is empty afterwards the editor returns to
Normal mode, otherwise it stays in Command mode; buffers, buffer index and
the pending action are untouched and no command is parsed or executed. -/
theorem c10_command_backspace {e : Editor} (h : e.mode = Mode.Command) :
    (update_command_backspace e).command_line = e.command_line.dropLast ∧
    (update_command_backspace e).buffers = e.buffers ∧
    (update_command_backspace e).current_buffer_index = e.current_buffer_index ∧
    (update_command_backspace e).action = e.action ∧
    (e.command_line.dropLast.isEmpty = true →
      (update_command_backspace e).mode = Mode.Normal) ∧
    (e.command_line.dropLast.isEmpty = false →
      (update_command_backspace e).mode = Mode.Command) := by
  unfold update_command_backspace
  refine ⟨rfl, rfl, rfl, rfl, ?_, ?_⟩
  · intro he
    simp [he]
  · intro he
    simp [he, h]

/-- C10 (witness): backspacing the command line `":"` in Command mode leaves
an empty line and returns the editor to Normal mode without touching the
buffers or the pending action. -/
theorem c10_witness :
    (update_command_backspace colonCommandEditor).command_line =
      colonCommandEditor.command_line.dropLast ∧
    (update_command_backspace colonCommandEditor).buffers = colonCommandEditor.buffers ∧
    (update_command_backspace colonCommandEditor).current_buffer_index =
      colonCommandEditor.current_buffer_index ∧
    (update_command_backspace colonCommandEditor).action = colonCommandEditor.action ∧
    (colonCommandEditor.command_line.dropLast.isEmpty = true →
      (update_command_backspace colonCommandEditor).mode = Mode.Normal) ∧
    (colonCommandEditor.command_line.dropLast.isEmpty = false →
      (update_command_backspace colonCommandEditor).mode = Mode.Command) :=
  c10_command_backspace rfl

end TextEditor
